import Mathlib

/-!
Verification of the blackthorne social-network module.

Shallow embedding of `src/blackthorne/social/network.py`.  The module's
behaviour is carried by the Cypher queries it sends to the graph store;
each Lean definition below is the declarative denotation of one of those
queries over an explicit graph state (nodes carry an internal node id
`nid`, mirroring node identity in the store; edges connect `nid`s, as
relationships connect nodes, not property values).

Notes on the translation:
* `CREATE (u:User {...})` appends a fresh node unconditionally: the code
  declares no uniqueness constraint, so no duplicate check happens.
* `MATCH (u:User {id: $x})` denotes the list of user nodes whose `id`
  property equals `x`; a query whose `MATCH` yields zero rows executes
  its `CREATE`/`MERGE` parts zero times and reports no error.
* `MERGE (i:Interest {name: $n})` reuses the first node with that name,
  creating one only when none exists.
* The `created_at: datetime()` attribute and the `since` default
  (`datetime.now()`) come from an external clock and are not modelled;
  `since` is an explicit argument.
-/

namespace Blackthorne

/-- A `User` node: internal node identity plus the properties set by
`create_user`. -/
structure UserNode where
  nid : Nat
  id : String
  name : String
  age : Int
  location : String
deriving DecidableEq

/-- An `Interest` node: internal node identity plus its `name` property. -/
structure InterestNode where
  nid : Nat
  name : String
deriving DecidableEq

/-- A `FRIENDS_WITH` relationship between two nodes, with its `since`
property. -/
structure FriendEdge where
  src : Nat
  dst : Nat
  since : String
deriving DecidableEq

/-- An `INTERESTED_IN` relationship from a user node to an interest node. -/
structure InterestEdge where
  src : Nat
  dst : Nat
deriving DecidableEq

/-- The graph store owned by a `SocialNetwork` instance. `nextId` feeds the
internal identity of the next node created. -/
structure GraphState where
  users : List UserNode
  interests : List InterestNode
  friendEdges : List FriendEdge
  interestEdges : List InterestEdge
  nextId : Nat
deriving DecidableEq

/-- The state after `clear_database`, and the initial state of a fresh
store. -/
def emptyGraph : GraphState := ⟨[], [], [], [], 0⟩

/-- Denotation of `MATCH (u:User {id: $user_id})`: every user node whose
`id` property equals the argument. -/
def matchUsers (g : GraphState) (uid : String) : List UserNode :=
  g.users.filter (fun u => u.id == uid)

/-- `create_user` (network.py lines 46-65): `CREATE (u:User {...})`.
`CREATE` inserts unconditionally; there is no uniqueness constraint, so an
existing node with the same `id` property is not detected. -/
def create_user (g : GraphState) (uid name : String) (age : Int)
    (location : String) : GraphState :=
  { g with
    users := g.users ++ [⟨g.nextId, uid, name, age, location⟩]
    nextId := g.nextId + 1 }

/-- `add_friendship` (network.py lines 67-84): two `MATCH` clauses produce
the cartesian product of the matching nodes; for each row both directed
`FRIENDS_WITH` edges are `CREATE`d with the same `since`.  Zero rows (a
missing endpoint) create nothing and raise nothing. -/
def add_friendship (g : GraphState) (uid1 uid2 since : String) : GraphState :=
  let rows := (matchUsers g uid1).flatMap
    (fun u1 => (matchUsers g uid2).map (fun u2 => (u1, u2)))
  { g with
    friendEdges := g.friendEdges ++ rows.flatMap
      (fun r => [⟨r.1.nid, r.2.nid, since⟩, ⟨r.2.nid, r.1.nid, since⟩]) }

/-- `add_interest` (network.py lines 86-99): `MATCH (u:User {id})` then
`MERGE (i:Interest {name})` then `CREATE (u)-[:INTERESTED_IN]->(i)`.
With zero matched users nothing runs; otherwise `MERGE` reuses the first
existing interest node with that name (creating one only if absent), and
one edge is created per matched user row. -/
def add_interest (g : GraphState) (uid interest : String) : GraphState :=
  match matchUsers g uid with
  | [] => g
  | rows =>
    match g.interests.find? (fun i => i.name == interest) with
    | some inode =>
      { g with interestEdges :=
          g.interestEdges ++ rows.map (fun u => ⟨u.nid, inode.nid⟩) }
    | none =>
      { g with
        interests := g.interests ++ [⟨g.nextId, interest⟩]
        interestEdges :=
          g.interestEdges ++ rows.map (fun u => ⟨u.nid, g.nextId⟩)
        nextId := g.nextId + 1 }

/-- Whether a directed `FRIENDS_WITH` edge `a → b` exists
(`(a)-[:FRIENDS_WITH]->(b)`). -/
def hasFriendEdge (g : GraphState) (a b : Nat) : Bool :=
  g.friendEdges.any (fun e => e.src == a && e.dst == b)

/-- The targets of the outgoing `FRIENDS_WITH` edges of a node
(`(a)-[:FRIENDS_WITH]->(x)`, one per edge, with multiplicity). -/
def outFriendNids (g : GraphState) (a : Nat) : List Nat :=
  (g.friendEdges.filter (fun e => e.src == a)).map (fun e => e.dst)

/-- Resolve an internal node id to a user node (the `:User` label check). -/
def userByNid (g : GraphState) (n : Nat) : Option UserNode :=
  g.users.find? (fun u => u.nid == n)

/-! ## Ordering used by `ORDER BY <count> DESC` -/

/-- `rankGe key a b` holds when `a` ranks at least as high as `b` under the
numeric sort key; sorting by it realises `ORDER BY key DESC`. -/
def rankGe {α : Type} (key : α → Nat) (a b : α) : Prop := key b ≤ key a

instance {α : Type} (key : α → Nat) : DecidableRel (rankGe key) :=
  fun a b => Nat.decLe (key b) (key a)

instance {α : Type} (key : α → Nat) : IsTotal α (rankGe key) :=
  ⟨fun a b => Or.symm (Nat.le_total (key a) (key b))⟩

instance {α : Type} (key : α → Nat) : IsTrans α (rankGe key) :=
  ⟨fun _ _ _ h1 h2 => Nat.le_trans h2 h1⟩

/-- Descending sort by a numeric key (`ORDER BY key DESC`; relative order
of ties is an implementation detail of the store, fixed here to the stable
insertion-sort order). -/
def sortDescBy {α : Type} (key : α → Nat) (l : List α) : List α :=
  List.insertionSort (rankGe key) l

/-! ## `find_friends_of_friends` (network.py lines 101-121) -/

/-- One row of the `find_friends_of_friends` result:
`{user_id, name, location, mutual_friends}`. -/
structure FofEntry where
  user_id : String
  name : String
  location : String
  mutual_friends : Nat
deriving DecidableEq

/-- The distinct nodes reachable by the pattern
`(user)-[:FRIENDS_WITH]->(friend)-[:FRIENDS_WITH]->(fof)` filtered by
`WHERE user <> fof AND NOT (user)-[:FRIENDS_WITH]->(fof)`.  This is also
the candidate set whose `COUNT(DISTINCT fof)` is the
`potential_connections` statistic (there the pattern leaves `fof`
unlabelled, so the raw node ids are collected here; the `:User` label
check of `find_friends_of_friends` is applied by its caller). -/
def potentialList (g : GraphState) (unid : Nat) : List Nat :=
  (((outFriendNids g unid).flatMap (outFriendNids g)).dedup).filter
    (fun c => !(c == unid) && !(hasFriendEdge g unid c))

/-- The candidate user nodes of `find_friends_of_friends`: the
`potentialList` targets that carry the `:User` label (`fof:User`). -/
def candidateNodes (g : GraphState) (unid : Nat) : List UserNode :=
  (potentialList g unid).filterMap (userByNid g)

/-- `COUNT(DISTINCT friend)` for one candidate: the number of distinct
intermediate nodes `friend` with `(user)-[:FRIENDS_WITH]->(friend)` and
`(friend)-[:FRIENDS_WITH]->(fof)`. -/
def mutualCount (g : GraphState) (unid cnid : Nat) : Nat :=
  (((outFriendNids g unid).dedup).filter (fun f => hasFriendEdge g f cnid)).length

/-- The projected value tuple `(fof.id, fof.name, fof.location)` of a
candidate row — the query's implicit aggregation key. -/
def fofKey (c : UserNode) : String × String × String :=
  (c.id, c.name, c.location)

/-- The raw rows of the `find_friends_of_friends` pattern for one matched
user node: one `(friend, fof)` pair per match of
`(user)-[:FRIENDS_WITH]->(friend)-[:FRIENDS_WITH]->(fof:User)` that
passes `WHERE user <> fof AND NOT (user)-[:FRIENDS_WITH]->(fof)`. -/
def fofRows (g : GraphState) (unid : Nat) : List (Nat × UserNode) :=
  (outFriendNids g unid).flatMap (fun f =>
    ((outFriendNids g f).filterMap (userByNid g)).filterMap (fun c =>
      if c.nid ≠ unid ∧ hasFriendEdge g unid c.nid = false then some (f, c)
      else none))

/-- `COUNT(DISTINCT friend)` within one aggregation group: the distinct
intermediate nodes over *all* rows whose candidate projects to the value
tuple `k` (duplicate-property candidate nodes merge into one group). -/
def groupFriends (g : GraphState) (unid : Nat) (k : String × String × String) :
    List Nat :=
  (((fofRows g unid).filter (fun r => decide (fofKey r.2 = k))).map
    (fun r => r.1)).dedup

/-- The aggregated rows of the `find_friends_of_friends` query before
`ORDER BY` and `LIMIT`: Cypher groups the rows by the projected *value*
tuple `(fof.id, fof.name, fof.location)` — not by candidate node — and
computes `COUNT(DISTINCT friend)` per group. -/
def fofGroups (g : GraphState) (unid : Nat) :
    List ((String × String × String) × Nat) :=
  ((fofRows g unid).map (fun r => fofKey r.2)).dedup.map
    (fun k => (k, (groupFriends g unid k).length))

/-- The full result-row list before `ORDER BY`/`LIMIT`.  (Cypher would
aggregate across all matched `user` nodes at once; the theorems below
always assume the id matches exactly one user, where this per-user
concatenation is exact.) -/
def fofFull (g : GraphState) (uid : String) : List FofEntry :=
  (matchUsers g uid).flatMap (fun u =>
    (fofGroups g u.nid).map (fun kc => ⟨kc.1.1, kc.1.2.1, kc.1.2.2, kc.2⟩))

/-- `find_friends_of_friends` (network.py lines 101-121):
the grouped rows, `ORDER BY mutual_friends DESC`, `LIMIT 10`. -/
def find_friends_of_friends (g : GraphState) (uid : String) : List FofEntry :=
  (sortDescBy (fun e => e.mutual_friends) (fofFull g uid)).take 10

/-! ## `get_network_statistics` (network.py lines 192-213) -/

/-- The record returned by `get_network_statistics` for a known user. -/
structure StatsRecord where
  name : String
  friend_count : Nat
  interest_count : Nat
  potential_connections : Nat
deriving DecidableEq

/-- The aggregated result rows of the `get_network_statistics` query: the
matched user nodes are grouped by the projected `user.name` *value*, and
each row carries `COUNT(DISTINCT friend)`, `COUNT(DISTINCT interest)`
and `COUNT(DISTINCT fof)` unioned over the group's nodes (the `fof`
pattern is the same filtered two-hop pattern as
`find_friends_of_friends`, without its `LIMIT`, evaluated per `user`
node). -/
def statsRows (g : GraphState) (uid : String) : List StatsRecord :=
  ((matchUsers g uid).map (fun u => u.name)).dedup.map (fun nm =>
    let nodes := (matchUsers g uid).filter (fun u => u.name == nm)
    ⟨nm,
     ((g.friendEdges.filter (fun e => nodes.any (fun x => e.src == x.nid))).map
       (fun e => e.dst)).dedup.length,
     ((g.interestEdges.filter (fun e => nodes.any (fun x => e.src == x.nid))).map
       (fun e => e.dst)).dedup.length,
     (nodes.flatMap (fun x => potentialList g x.nid)).dedup.length⟩)

/-- `get_network_statistics` (network.py lines 192-213).  `MATCH` on the
user id; an unmatched id yields no row and the method returns the empty
dict, modelled as `none`.  With rows present, `result.single()` yields
an engine-ordered first row (unspecified when several rows exist); the
model takes the head of `statsRows`, which is exact whenever the id
matches at most one user — the situation every theorem below assumes. -/
def get_network_statistics (g : GraphState) (uid : String) : Option StatsRecord :=
  (statsRows g uid).head?

/-! ## `find_communities` (network.py lines 172-190) -/

/-- One row of the `find_communities` result: `{interest, size, members}`. -/
structure CommunityEntry where
  interest : String
  size : Nat
  members : List String
deriving DecidableEq

/-- The member-name list of one interest node: one entry per
`(i)<-[:INTERESTED_IN]-(u:User)` row, i.e. per incident edge whose source
is a user node (multiplicity preserved — `COLLECT(u.name)`). -/
def communityMembers (g : GraphState) (inode : InterestNode) : List String :=
  ((g.interestEdges.filter (fun e => e.dst == inode.nid)).filterMap
    (fun e => userByNid g e.src)).map (fun u => u.name)

/-- `find_communities` (network.py lines 172-190): group the
`(i:Interest)<-[:INTERESTED_IN]-(u:User)` rows per interest node
(`COLLECT(u.name)` / `COUNT(u)` — row counts, not distinct users), keep
groups with `size >= $min_connections`, `ORDER BY size DESC`.  An
interest node with no incident row produces no group at all. -/
def find_communities (g : GraphState) (minConnections : Int) : List CommunityEntry :=
  sortDescBy (fun c => c.size)
    ((g.interests.filterMap (fun i =>
      let members := communityMembers g i
      if members.length = 0 then none
      else if (members.length : Int) ≥ minConnections then
        some ⟨i.name, members.length, members⟩
      else none)))

/-! ## `find_shortest_connection_path` (network.py lines 123-144)

The query matches `shortestPath((u1)-[:FRIENDS_WITH*]-(u2))` — a
minimum-hop path over the undirected view of the `FRIENDS_WITH`
relation — and projects the node names along it; no match yields no row
and the method returns `None`.  The denotation below computes the same
thing by levelled expansion: `reachL g s k` is the set of nodes within
`k` undirected hops of `s`, and `buildPath` reconstructs one minimum-hop
path by walking the levels down. -/

/-- Every endpoint occurring in some `FRIENDS_WITH` edge. -/
def allEnds (g : GraphState) : List Nat :=
  g.friendEdges.flatMap (fun e => [e.src, e.dst])

theorem mem_matchUsers {g : GraphState} {uid : String} {u : UserNode} :
    u ∈ matchUsers g uid ↔ u ∈ g.users ∧ u.id = uid := by
  simp [matchUsers, List.mem_filter]

theorem hasFriendEdge_iff {g : GraphState} {a b : Nat} :
    hasFriendEdge g a b = true ↔ ∃ e ∈ g.friendEdges, e.src = a ∧ e.dst = b := by
  simp [hasFriendEdge, List.any_eq_true]

theorem mem_outFriendNids {g : GraphState} {a f : Nat} :
    f ∈ outFriendNids g a ↔ hasFriendEdge g a f = true := by
  simp [outFriendNids, hasFriendEdge_iff, List.mem_map, List.mem_filter]
  constructor
  · rintro ⟨e, ⟨he, hsrc⟩, hdst⟩
    exact ⟨e, he, hsrc, hdst⟩
  · rintro ⟨e, he, hsrc, hdst⟩
    exact ⟨e, ⟨he, hsrc⟩, hdst⟩

theorem userByNid_eq_some {g : GraphState} {n : Nat} {u : UserNode}
    (h : userByNid g n = some u) : u ∈ g.users ∧ u.nid = n := by
  refine ⟨List.mem_of_find?_eq_some h, ?_⟩
  have := List.find?_some h
  simpa using this

theorem userByNid_of_mem {g : GraphState} {u : UserNode}
    (hnd : (g.users.map (fun x => x.nid)).Nodup) (hu : u ∈ g.users) :
    userByNid g u.nid = some u := by
  have hsome : (g.users.find? (fun x => x.nid == u.nid)).isSome = true := by
    rw [List.find?_isSome]
    exact ⟨u, hu, by simp⟩
  obtain ⟨v, hv⟩ := Option.isSome_iff_exists.mp hsome
  have hvmem := List.mem_of_find?_eq_some hv
  have hvnid : v.nid = u.nid := by simpa using List.find?_some hv
  have : v = u := List.inj_on_of_nodup_map hnd hvmem hu hvnid
  rw [userByNid, hv, this]

theorem nodup_potentialList (g : GraphState) (unid : Nat) :
    (potentialList g unid).Nodup :=
  List.Nodup.filter _ (List.nodup_dedup _)

/-! ## Lemmas about `sortDescBy` -/

theorem mem_sortDescBy {α : Type} {key : α → Nat} {l : List α} {a : α} :
    a ∈ sortDescBy key l ↔ a ∈ l :=
  (List.perm_insertionSort (rankGe key) l).mem_iff

theorem length_sortDescBy {α : Type} (key : α → Nat) (l : List α) :
    (sortDescBy key l).length = l.length :=
  (List.perm_insertionSort (rankGe key) l).length_eq

theorem sorted_sortDescBy {α : Type} (key : α → Nat) (l : List α) :
    List.Sorted (rankGe key) (sortDescBy key l) :=
  List.sorted_insertionSort (rankGe key) l

/-! ## Invariant predicates -/

/-- Every `FRIENDS_WITH` edge has its reverse twin with the same `since`. -/
def SymmetricFriends (g : GraphState) : Prop :=
  ∀ e ∈ g.friendEdges, (⟨e.dst, e.src, e.since⟩ : FriendEdge) ∈ g.friendEdges

/-- No `FRIENDS_WITH` self-loop. -/
def IrreflexiveF (g : GraphState) : Prop :=
  ∀ e ∈ g.friendEdges, e.src ≠ e.dst

/-- At most one `FRIENDS_WITH` edge per ordered node pair. -/
def SimpleF (g : GraphState) : Prop :=
  (g.friendEdges.map (fun e => (e.src, e.dst))).Nodup

/-- At most one `Interest` node per name. -/
def InterestNamesNodup (g : GraphState) : Prop :=
  (g.interests.map (fun i => i.name)).Nodup

/-! ## Concrete graphs used by the witnesses and counterexamples -/

/-- One user `a`, no edges. -/
def gOne : GraphState := create_user emptyGraph "a" "A" 30 "L"

/-- One user `b`, no edges. -/
def gOneB : GraphState := create_user emptyGraph "b" "B" 1 "M"

/-- Two `create_user` calls with the same id `"a"`. -/
def gDupUsers : GraphState := create_user gOne "a" "B" 2 "M"

/-- Alice, Bob, Carol; friendships Alice–Bob and Bob–Carol (the concrete
scenario of the spec). -/
def gABC : GraphState :=
  add_friendship (add_friendship
    (create_user (create_user (create_user emptyGraph "a" "Alice" 28 "NY")
      "b" "Bob" 32 "SF") "c" "Carol" 25 "NY")
    "a" "b" "t1") "b" "c" "t2"

/-- Two users, both with interest `x`. -/
def gTwoInterest : GraphState :=
  add_interest (add_interest
    (create_user (create_user emptyGraph "a" "A" 1 "L") "b" "B" 1 "L")
    "a" "x") "b" "x"

/-- One user who added the same interest `x` twice. -/
def gDupInterest : GraphState :=
  add_interest (add_interest (create_user emptyGraph "a" "A" 1 "L") "a" "x") "a" "x"

/-- Two users `a` (nid 0) and `b` (nid 1), no edges. -/
def gAB0 : GraphState := create_user (create_user emptyGraph "a" "A" 1 "L") "b" "B" 1 "M"

/-! ## Helper lemmas about the mutating operations -/

theorem add_friendship_friendEdges (g : GraphState) (a b s : String) :
    (add_friendship g a b s).friendEdges = g.friendEdges ++
      ((matchUsers g a).flatMap
        (fun u1 => (matchUsers g b).map (fun u2 => (u1, u2)))).flatMap
        (fun r => [⟨r.1.nid, r.2.nid, s⟩, ⟨r.2.nid, r.1.nid, s⟩]) := rfl

theorem add_friendship_users (g : GraphState) (a b s : String) :
    (add_friendship g a b s).users = g.users := rfl

theorem create_user_friendEdges (g : GraphState) (uid n : String) (a : Int)
    (loc : String) : (create_user g uid n a loc).friendEdges = g.friendEdges := rfl

theorem add_interest_friendEdges (g : GraphState) (uid i : String) :
    (add_interest g uid i).friendEdges = g.friendEdges := by
  unfold add_interest
  cases hm : matchUsers g uid with
  | nil => rfl
  | cons u rest =>
    cases hf : g.interests.find? (fun x => x.name == i) <;> rfl

theorem add_interest_users (g : GraphState) (uid i : String) :
    (add_interest g uid i).users = g.users := by
  unfold add_interest
  cases hm : matchUsers g uid with
  | nil => rfl
  | cons u rest =>
    cases hf : g.interests.find? (fun x => x.name == i) <;> rfl

/-! ## Claim C3 -/

/-- Claim C3: `add_friendship` between two existing users inserts both
directed `FRIENDS_WITH` edges with the identical `since` value, so each
user appears among the other's outgoing `FRIENDS_WITH` neighbours; and
the symmetry invariant (every edge has its reverse twin with the same
`since`) is preserved by every mutating operation and holds initially. -/
theorem C3_friendship_symmetric :
    (∀ (g : GraphState) (a b s : String) (u1 u2 : UserNode),
      u1 ∈ matchUsers g a → u2 ∈ matchUsers g b →
        (⟨u1.nid, u2.nid, s⟩ : FriendEdge) ∈ (add_friendship g a b s).friendEdges
        ∧ (⟨u2.nid, u1.nid, s⟩ : FriendEdge) ∈ (add_friendship g a b s).friendEdges
        ∧ u2.nid ∈ outFriendNids (add_friendship g a b s) u1.nid
        ∧ u1.nid ∈ outFriendNids (add_friendship g a b s) u2.nid)
    ∧ (∀ (g : GraphState) (a b s : String),
        SymmetricFriends g → SymmetricFriends (add_friendship g a b s))
    ∧ (∀ (g : GraphState) (uid n : String) (ag : Int) (loc : String),
        SymmetricFriends g → SymmetricFriends (create_user g uid n ag loc))
    ∧ (∀ (g : GraphState) (uid i : String),
        SymmetricFriends g → SymmetricFriends (add_interest g uid i))
    ∧ SymmetricFriends emptyGraph := by
  refine ⟨?_, ?_, ?_, ?_, ?_⟩
  · intro g a b s u1 u2 h1 h2
    have hrow : (u1, u2) ∈ (matchUsers g a).flatMap
        (fun x1 => (matchUsers g b).map (fun x2 => (x1, x2))) :=
      List.mem_flatMap.mpr ⟨u1, h1, List.mem_map.mpr ⟨u2, h2, rfl⟩⟩
    have hfwd : (⟨u1.nid, u2.nid, s⟩ : FriendEdge)
        ∈ (add_friendship g a b s).friendEdges := by
      rw [add_friendship_friendEdges]
      exact List.mem_append_right _ (List.mem_flatMap.mpr ⟨(u1, u2), hrow, by simp⟩)
    have hbwd : (⟨u2.nid, u1.nid, s⟩ : FriendEdge)
        ∈ (add_friendship g a b s).friendEdges := by
      rw [add_friendship_friendEdges]
      exact List.mem_append_right _ (List.mem_flatMap.mpr ⟨(u1, u2), hrow, by simp⟩)
    refine ⟨hfwd, hbwd, ?_, ?_⟩
    · exact mem_outFriendNids.mpr
        (hasFriendEdge_iff.mpr ⟨_, hfwd, rfl, rfl⟩)
    · exact mem_outFriendNids.mpr
        (hasFriendEdge_iff.mpr ⟨_, hbwd, rfl, rfl⟩)
  · intro g a b s hsym e he
    rw [add_friendship_friendEdges] at he ⊢
    rcases List.mem_append.mp he with hold | hnew
    · exact List.mem_append_left _ (hsym e hold)
    · obtain ⟨r, hr, hmem⟩ := List.mem_flatMap.mp hnew
      rcases List.mem_pair.mp hmem with h | h <;> subst h <;>
        exact List.mem_append_right _ (List.mem_flatMap.mpr ⟨r, hr, by simp⟩)
  · intro g uid n ag loc hsym
    exact hsym
  · intro g uid i hsym
    intro e he
    rw [add_interest_friendEdges] at he
    rw [add_interest_friendEdges]
    exact hsym e he
  · intro e he
    simp [emptyGraph] at he

/-- Claim C3 witness: applying the theorem to the two-user store `gAB0`
(`a` has nid 0, `b` has nid 1). -/
theorem C3_witness :
    (⟨0, 1, "t"⟩ : FriendEdge) ∈ (add_friendship gAB0 "a" "b" "t").friendEdges
    ∧ (⟨1, 0, "t"⟩ : FriendEdge) ∈ (add_friendship gAB0 "a" "b" "t").friendEdges
    ∧ 1 ∈ outFriendNids (add_friendship gAB0 "a" "b" "t") 0
    ∧ 0 ∈ outFriendNids (add_friendship gAB0 "a" "b" "t") 1 :=
  C3_friendship_symmetric.1 gAB0 "a" "b" "t"
    ⟨0, "a", "A", 1, "L"⟩ ⟨1, "b", "B", 1, "M"⟩ (by decide) (by decide)

/-! ## Claim C9 -/

/-- Claim C9, amended: the code performs no irreflexivity or duplicate
check, so the invariant only holds for call sequences that pass two
distinct existing ids and never repeat a pair.  Under those conditions a
single `add_friendship` call preserves irreflexivity and simplicity of
the `FRIENDS_WITH` relation. -/
theorem C9_irreflexive_simple_amended :
    ∀ (g : GraphState) (a b s : String) (u1 u2 : UserNode),
      matchUsers g a = [u1] → matchUsers g b = [u2] → a ≠ b →
      (g.users.map (fun x => x.nid)).Nodup →
      IrreflexiveF g → SimpleF g →
      hasFriendEdge g u1.nid u2.nid = false →
      hasFriendEdge g u2.nid u1.nid = false →
      IrreflexiveF (add_friendship g a b s) ∧ SimpleF (add_friendship g a b s) := by
  intro g a b s u1 u2 hm1 hm2 hab hnd hirr hsimp hno1 hno2
  have hu1 : u1 ∈ g.users ∧ u1.id = a :=
    mem_matchUsers.mp (hm1 ▸ List.mem_singleton.mpr rfl)
  have hu2 : u2 ∈ g.users ∧ u2.id = b :=
    mem_matchUsers.mp (hm2 ▸ List.mem_singleton.mpr rfl)
  have hnid : u1.nid ≠ u2.nid := by
    intro h
    have : u1 = u2 := List.inj_on_of_nodup_map hnd hu1.1 hu2.1 h
    exact hab (hu1.2 ▸ hu2.2 ▸ congrArg UserNode.id this)
  have hE : (add_friendship g a b s).friendEdges
      = g.friendEdges ++ [⟨u1.nid, u2.nid, s⟩, ⟨u2.nid, u1.nid, s⟩] := by
    rw [add_friendship_friendEdges, hm1, hm2]
    rfl
  constructor
  · intro e he
    rw [hE] at he
    rcases List.mem_append.mp he with hold | hnew
    · exact hirr e hold
    · rcases List.mem_pair.mp hnew with h | h <;> subst h
      · exact hnid
      · exact fun h => hnid h.symm
  · unfold SimpleF
    rw [hE, List.map_append]
    refine List.nodup_append.mpr ⟨hsimp, ?_, ?_⟩
    · refine List.nodup_cons.mpr ⟨?_, List.nodup_singleton _⟩
      intro h
      rcases List.mem_singleton.mp h with h
      exact hnid (congrArg Prod.fst h)
    · intro x hx hx2
      rcases List.mem_pair.mp hx2 with h | h <;> subst h
      · obtain ⟨e, he, hpair⟩ := List.mem_map.mp hx
        have : hasFriendEdge g u1.nid u2.nid = true :=
          hasFriendEdge_iff.mpr
            ⟨e, he, congrArg Prod.fst hpair, congrArg Prod.snd hpair⟩
        rw [hno1] at this
        exact Bool.false_ne_true this
      · obtain ⟨e, he, hpair⟩ := List.mem_map.mp hx
        have : hasFriendEdge g u2.nid u1.nid = true :=
          hasFriendEdge_iff.mpr
            ⟨e, he, congrArg Prod.fst hpair, congrArg Prod.snd hpair⟩
        rw [hno2] at this
        exact Bool.false_ne_true this

/-- Claim C9, counterexample to the claim as stated: the reachable state
after `create_user a; add_friendship a a` holds a `FRIENDS_WITH`
self-loop, and even two parallel copies of it, so the relation is
neither irreflexive nor simple after this legal call sequence. -/
theorem C9_counterexample :
    (∃ e ∈ (add_friendship gOne "a" "a" "t").friendEdges, e.src = e.dst)
    ∧ ¬ SimpleF (add_friendship gOne "a" "a" "t") := by
  constructor
  · exact ⟨⟨0, 0, "t"⟩, by decide, rfl⟩
  · have h0 : ¬ ((add_friendship gOne "a" "a" "t").friendEdges.map
        (fun e => (e.src, e.dst))).Nodup := by decide
    exact fun h => h0 h

/-- Claim C9 witness: the amended theorem applied to the two-user store
`gAB0` with a fresh distinct pair. -/
theorem C9_witness :
    IrreflexiveF (add_friendship gAB0 "a" "b" "t")
    ∧ SimpleF (add_friendship gAB0 "a" "b" "t") :=
  C9_irreflexive_simple_amended gAB0 "a" "b" "t"
    ⟨0, "a", "A", 1, "L"⟩ ⟨1, "b", "B", 1, "M"⟩
    (by decide) (by decide) (by decide) (by decide)
    (by intro e he; simp [gAB0, create_user, emptyGraph] at he)
    (by unfold SimpleF; decide) (by decide) (by decide)

/-! ## Claim C4 -/

/-- Claim C4, amended: a call to `add_friendship` or `add_interest` whose
referenced endpoint users do not all exist performs no mutation at all —
the `MATCH` clauses yield zero rows, so nothing is created and the graph
is returned unchanged.  (No `NotFound` error is surfaced: the operations
are total and report nothing, which is the correction to the claim;
atomicity — no partial application — holds.) -/
theorem C4_missing_endpoint_silent_noop :
    (∀ (g : GraphState) (a b s : String),
      matchUsers g a = [] ∨ matchUsers g b = [] → add_friendship g a b s = g)
    ∧ ∀ (g : GraphState) (uid i : String),
      matchUsers g uid = [] → add_interest g uid i = g := by
  constructor
  · intro g a b s h
    have h0 : ((matchUsers g a).flatMap
        (fun u1 => (matchUsers g b).map (fun u2 => (u1, u2)))) = [] := by
      rcases h with h | h <;> simp [h]
    simp [add_friendship, h0]
  · intro g uid i h
    simp [add_interest, h]

/-- Claim C4, counterexample to the claim as stated: with only user `b`
present, `add_friendship` towards the missing id `"missing"` does not
fail with a `NotFound` error — it completes normally and returns the
store unchanged (and likewise `add_interest` for an unknown user, which
also creates no `Interest` node). -/
theorem C4_counterexample :
    add_friendship gOneB "b" "missing" "t" = gOneB
    ∧ add_interest gOneB "missing" "pix" = gOneB := by
  constructor <;> decide

/-- Claim C4 witness: the amended theorem applied to the concrete
one-user store `gOne`. -/
theorem C4_witness :
    add_friendship gOne "a" "zz" "t" = gOne ∧ add_interest gOne "zz" "x" = gOne :=
  ⟨C4_missing_endpoint_silent_noop.1 gOne "a" "zz" "t" (Or.inr (by decide)),
   C4_missing_endpoint_silent_noop.2 gOne "zz" "x" (by decide)⟩

/-! ## Claim C8 -/

/-- Claim C8, amended: `create_user` performs no duplicate check at all —
it unconditionally appends a fresh node, so a call whose id already
exists still succeeds and yields a second node with the same id (the
`CREATE` clause has no uniqueness constraint backing it).  In particular
the number of nodes matching the id always grows by exactly one. -/
theorem C8_create_user_always_inserts :
    ∀ (g : GraphState) (uid n : String) (a : Int) (loc : String),
      (matchUsers (create_user g uid n a loc) uid).length
        = (matchUsers g uid).length + 1
      ∧ (create_user g uid n a loc).users.length = g.users.length + 1 := by
  intro g uid n a loc
  constructor
  · simp [create_user, matchUsers]
  · simp [create_user]

/-- Claim C8, counterexample to the claim as stated: creating `"a"` twice
raises no `DuplicateKey` error; afterwards two distinct user nodes carry
the id `"a"`, so node identities are not globally unique. -/
theorem C8_counterexample :
    (matchUsers gDupUsers "a").length = 2
    ∧ gDupUsers.users.length = 2 := by
  constructor <;> decide

/-! ## Claim C5 -/

theorem add_interest_eq_of_absent (g : GraphState) (uid i : String)
    (u : UserNode) (l : List UserNode) (hm : matchUsers g uid = u :: l)
    (hf : g.interests.find? (fun x => x.name == i) = none) :
    add_interest g uid i = { g with
      interests := g.interests ++ [⟨g.nextId, i⟩]
      interestEdges :=
        g.interestEdges ++ (u :: l).map (fun x => ⟨x.nid, g.nextId⟩)
      nextId := g.nextId + 1 } := by
  unfold add_interest
  rw [hm, hf]

theorem add_interest_eq_of_present (g : GraphState) (uid i : String)
    (u : UserNode) (l : List UserNode) (inode : InterestNode)
    (hm : matchUsers g uid = u :: l)
    (hf : g.interests.find? (fun x => x.name == i) = some inode) :
    add_interest g uid i = { g with
      interestEdges :=
        g.interestEdges ++ (u :: l).map (fun x => ⟨x.nid, inode.nid⟩) } := by
  unfold add_interest
  rw [hm, hf]

/-- Claim C5: at most one `Interest` node per name ever exists — the
name-uniqueness invariant holds initially and is preserved by every
operation (`MERGE` only creates an interest node when none with that
name is present); and adding the same interest name for two users whose
ids both match leaves exactly one `Interest` node with that name, with
an `INTERESTED_IN` edge from every matched user of both calls to it
(the second call reuses the node the first call created). -/
theorem C5_interest_dedup :
    (∀ (g : GraphState) (uid i : String),
      InterestNamesNodup g → InterestNamesNodup (add_interest g uid i))
    ∧ (∀ (g : GraphState) (uid n : String) (a : Int) (loc : String),
        InterestNamesNodup g → InterestNamesNodup (create_user g uid n a loc))
    ∧ (∀ (g : GraphState) (a b s : String),
        InterestNamesNodup g → InterestNamesNodup (add_friendship g a b s))
    ∧ InterestNamesNodup emptyGraph
    ∧ (∀ (g : GraphState) (uid1 uid2 i : String) (u1 u2 : UserNode)
        (l1 l2 : List UserNode),
        matchUsers g uid1 = u1 :: l1 → matchUsers g uid2 = u2 :: l2 →
        g.interests.find? (fun x => x.name == i) = none →
        ∃ inode : InterestNode,
          ((add_interest (add_interest g uid1 i) uid2 i).interests.filter
            (fun x => x.name == i)) = [inode]
          ∧ (∀ u ∈ matchUsers g uid1,
              (⟨u.nid, inode.nid⟩ : InterestEdge)
                ∈ (add_interest (add_interest g uid1 i) uid2 i).interestEdges)
          ∧ (∀ u ∈ matchUsers g uid2,
              (⟨u.nid, inode.nid⟩ : InterestEdge)
                ∈ (add_interest (add_interest g uid1 i) uid2 i).interestEdges)) := by
  refine ⟨?_, ?_, ?_, ?_, ?_⟩
  · intro g uid i hnd
    unfold InterestNamesNodup at hnd ⊢
    unfold add_interest
    cases hm : matchUsers g uid with
    | nil => exact hnd
    | cons u rest =>
      cases hf : g.interests.find? (fun x => x.name == i) with
      | some inode => exact hnd
      | none =>
        simp only [List.map_append]
        refine List.nodup_append.mpr ⟨hnd, by simp, ?_⟩
        intro x hx hx2
        simp only [List.map_cons, List.map_nil, List.mem_singleton] at hx2
        subst hx2
        obtain ⟨inode, hmem, hname⟩ := List.mem_map.mp hx
        exact List.find?_eq_none.mp hf inode hmem (by simp [hname])
  · intro g uid n a loc hnd
    exact hnd
  · intro g a b s hnd
    exact hnd
  · simp [InterestNamesNodup, emptyGraph]
  · intro g uid1 uid2 i u1 u2 l1 l2 hm1 hm2 hf
    have hg1 := add_interest_eq_of_absent g uid1 i u1 l1 hm1 hf
    have hm2a : matchUsers (add_interest g uid1 i) uid2 = u2 :: l2 := by
      rw [hg1]
      exact hm2
    have hf2 : (add_interest g uid1 i).interests.find? (fun x => x.name == i)
        = some ⟨g.nextId, i⟩ := by
      rw [hg1]
      show (g.interests ++ [(⟨g.nextId, i⟩ : InterestNode)]).find? (fun x => x.name == i) = _
      rw [List.find?_append, hf]
      simp
    have hg2 := add_interest_eq_of_present (add_interest g uid1 i) uid2 i
      u2 l2 ⟨g.nextId, i⟩ hm2a hf2
    refine ⟨⟨g.nextId, i⟩, ?_, ?_, ?_⟩
    · rw [hg2]
      show ((add_interest g uid1 i).interests.filter (fun x => x.name == i)) = _
      rw [hg1]
      show ((g.interests ++ [(⟨g.nextId, i⟩ : InterestNode)]).filter (fun x => x.name == i)) = _
      rw [List.filter_append]
      have hnil : g.interests.filter (fun x => x.name == i) = [] :=
        List.filter_eq_nil_iff.mpr (List.find?_eq_none.mp hf)
      rw [hnil]
      simp
    · intro u hu
      rw [hg2]
      show (⟨u.nid, _⟩ : InterestEdge)
        ∈ (add_interest g uid1 i).interestEdges ++ _
      apply List.mem_append_left
      rw [hg1]
      show (⟨u.nid, _⟩ : InterestEdge) ∈ g.interestEdges ++ _
      apply List.mem_append_right
      rw [hm1] at hu
      exact List.mem_map.mpr ⟨u, hu, rfl⟩
    · intro u hu
      rw [hg2]
      apply List.mem_append_right
      rw [hm2] at hu
      exact List.mem_map.mpr ⟨u, hu, rfl⟩

/-- Claim C5 witness: the reuse theorem applied to the two-user store
`gAB0` and interest name `"x"` (the created interest node gets nid 2). -/
theorem C5_witness :
    ∃ inode : InterestNode,
      ((add_interest (add_interest gAB0 "a" "x") "b" "x").interests.filter
        (fun x => x.name == "x")) = [inode]
      ∧ (∀ u ∈ matchUsers gAB0 "a",
          (⟨u.nid, inode.nid⟩ : InterestEdge)
            ∈ (add_interest (add_interest gAB0 "a" "x") "b" "x").interestEdges)
      ∧ (∀ u ∈ matchUsers gAB0 "b",
          (⟨u.nid, inode.nid⟩ : InterestEdge)
            ∈ (add_interest (add_interest gAB0 "a" "x") "b" "x").interestEdges) :=
  C5_interest_dedup.2.2.2.2 gAB0 "a" "b" "x"
    ⟨0, "a", "A", 1, "L"⟩ ⟨1, "b", "B", 1, "M"⟩ [] []
    (by decide) (by decide) (by decide)

/-! ## Claim C10 -/

/-- With a uniquely matched id there is exactly one result row, grouped
on that user's name alone, so the record is that user's per-node
counts. -/
theorem get_network_statistics_single {g : GraphState} {uid : String}
    {u : UserNode} (hm : matchUsers g uid = [u]) :
    get_network_statistics g uid = some ⟨u.name,
      ((g.friendEdges.filter (fun e => e.src == u.nid)).map
        (fun e => e.dst)).dedup.length,
      ((g.interestEdges.filter (fun e => e.src == u.nid)).map
        (fun e => e.dst)).dedup.length,
      (potentialList g u.nid).length⟩ := by
  unfold get_network_statistics statsRows
  rw [hm]
  simp only [List.map_cons, List.map_nil, List.dedup_cons_of_not_mem,
    List.not_mem_nil, not_false_iff, List.dedup_nil, List.head?_cons,
    List.filter_cons, beq_self_eq_true, if_true, List.filter_nil,
    List.any_cons, List.any_nil, Bool.or_false, List.flatMap_cons,
    List.flatMap_nil, List.append_nil, Option.some.injEq]
  rw [List.dedup_eq_self.mpr (nodup_potentialList g u.nid)]

/-- Claim C10, amended: `get_network_statistics` returns the empty
result exactly when no user carries the requested id (row presence is
independent of the engine's row order); and for an id matching exactly
one user it returns a populated record carrying that user's name, whose
counts are 0 (rather than the record being absent) when the user has no
outgoing `FRIENDS_WITH` or `INTERESTED_IN` edges.  With several users
sharing the id, `single()` yields one engine-ordered row, so no per-user
guarantee exists — the correction the counterexample forces. -/
theorem C10_stats_amended :
    (∀ (g : GraphState) (uid : String),
      get_network_statistics g uid = none ↔ matchUsers g uid = [])
    ∧ (∀ (g : GraphState) (uid : String) (u : UserNode),
        matchUsers g uid = [u] →
        ∃ r : StatsRecord, get_network_statistics g uid = some r
          ∧ r.name = u.name
          ∧ (g.friendEdges.filter (fun e => e.src == u.nid) = [] →
              r.friend_count = 0 ∧ r.potential_connections = 0)
          ∧ (g.interestEdges.filter (fun e => e.src == u.nid) = [] →
              r.interest_count = 0)) := by
  constructor
  · intro g uid
    unfold get_network_statistics statsRows
    rw [List.head?_eq_none_iff]
    constructor
    · intro h
      have h2 := List.map_eq_nil.mp h
      have h3 := (List.dedup_eq_nil _).mp h2
      exact List.map_eq_nil.mp h3
    · intro h
      rw [h]
      simp
  · intro g uid u hm
    rw [get_network_statistics_single hm]
    refine ⟨_, rfl, rfl, ?_, ?_⟩
    · intro h
      constructor
      · simp [h]
      · simp [potentialList, outFriendNids, h]
    · intro h
      simp [h]

/-- Claim C10 witness: the amended theorem applied to the one-user store
`gOne`, whose single user has no friends and no interests. -/
theorem C10_witness :
    ∃ r : StatsRecord, get_network_statistics gOne "a" = some r
      ∧ r.name = "A"
      ∧ (gOne.friendEdges.filter (fun e => e.src == (0 : Nat)) = [] →
          r.friend_count = 0 ∧ r.potential_connections = 0)
      ∧ (gOne.interestEdges.filter (fun e => e.src == (0 : Nat)) = [] →
          r.interest_count = 0) :=
  C10_stats_amended.2 gOne "a" ⟨0, "a", "A", 30, "L"⟩ (by decide)

/-- Claim C10, counterexample to the claim as stated: two user nodes
share id `"a"` but carry different names, so whichever engine-ordered
row `single()` returns holds a single `name` field and cannot equal
every matching user's name — the claim's "for every existing user U the
result … contain[s] U's name" fails for at least one of them.  In the
modelled row order it fails for the second-created user (name `"B"`). -/
theorem C10_counterexample :
    matchUsers gDupUsers "a"
      = [⟨0, "a", "A", 30, "L"⟩, ⟨1, "a", "B", 2, "M"⟩]
    ∧ ∃ u ∈ matchUsers gDupUsers "a",
        (get_network_statistics gDupUsers "a").map (fun r => r.name)
          ≠ some u.name := by
  refine ⟨by decide, ⟨1, "a", "B", 2, "M"⟩, by decide, by decide⟩

/-! ## Claim C6 -/

/-- Claim C6, amended: `find_communities` returns exactly the interest
nodes whose incident `INTERESTED_IN`-edge row count (`COUNT(u)` — with
multiplicity, not the incident *user set* size) is at least
`minConnections` and nonzero, each with that row count as `size` and the
collected member names, ordered by `size` descending; consequently the
threshold scenario holds for the edge count (an interest strictly below
the threshold is excluded), and the count coincides with the user-set
size only when no user added the interest more than once.  The last two
conjuncts check the concrete threshold scenario at `minConnections = 2`:
one member excludes the interest, a second member includes it. -/
theorem C6_communities_amended :
    (∀ (g : GraphState) (m : Int) (c : CommunityEntry),
      c ∈ find_communities g m ↔
        ∃ inode ∈ g.interests, c.interest = inode.name
          ∧ c.members = communityMembers g inode
          ∧ c.size = (communityMembers g inode).length
          ∧ communityMembers g inode ≠ []
          ∧ ((communityMembers g inode).length : Int) ≥ m)
    ∧ (∀ (g : GraphState) (m : Int),
        List.Sorted (rankGe (fun c => c.size)) (find_communities g m))
    ∧ (∀ (g : GraphState) (m : Int) (inode : InterestNode),
        InterestNamesNodup g → inode ∈ g.interests →
        ((communityMembers g inode).length : Int) < m →
        ∀ c ∈ find_communities g m, c.interest ≠ inode.name)
    ∧ find_communities (add_interest gOne "a" "x") 2 = []
    ∧ find_communities gTwoInterest 2 = [⟨"x", 2, ["A", "B"]⟩] := by
  have hmem : ∀ (g : GraphState) (m : Int) (c : CommunityEntry),
      c ∈ find_communities g m ↔
        ∃ inode ∈ g.interests, c.interest = inode.name
          ∧ c.members = communityMembers g inode
          ∧ c.size = (communityMembers g inode).length
          ∧ communityMembers g inode ≠ []
          ∧ ((communityMembers g inode).length : Int) ≥ m := by
    intro g m c
    unfold find_communities
    rw [mem_sortDescBy, List.mem_filterMap]
    constructor
    · rintro ⟨inode, hi, hfc⟩
      refine ⟨inode, hi, ?_⟩
      by_cases h0 : (communityMembers g inode).length = 0
      · simp [h0] at hfc
      · by_cases hge : ((communityMembers g inode).length : Int) ≥ m
        · simp only [h0, if_false, hge, if_true, Option.some.injEq] at hfc
          subst hfc
          exact ⟨rfl, rfl, rfl, fun h => h0 (by rw [h]; rfl), hge⟩
        · simp [h0, hge] at hfc
    · rintro ⟨inode, hi, hci, hcm, hcs, hne, hge⟩
      refine ⟨inode, hi, ?_⟩
      have h0 : ¬ (communityMembers g inode).length = 0 := fun h =>
        hne (List.length_eq_zero.mp h)
      simp only [h0, if_false, hge, if_true, Option.some.injEq]
      cases c with
      | mk ci cs cm =>
        simp only at hci hcm hcs
        rw [hci, hcm, hcs]
  refine ⟨hmem, ?_, ?_, by decide, by decide⟩
  · intro g m
    exact sorted_sortDescBy _ _
  · intro g m inode hnd hi hlt c hc hname
    obtain ⟨inode2, hi2, hci2, _, _, _, hge2⟩ := (hmem g m c).mp hc
    have : inode2 = inode :=
      List.inj_on_of_nodup_map hnd hi2 hi (by rw [← hci2, hname])
    subst this
    omega

/-- Claim C6, counterexample to the claim as stated: in `gDupInterest`
one user added interest `x` twice, so the single interest node (nid 1)
has an incident *user set* of size 1, strictly below the threshold 2 —
the claim demands exclusion — yet `find_communities 2` includes it with
`size = 2`, because the code counts rows (`COUNT(u)`), one per edge. -/
theorem C6_counterexample :
    gDupInterest.interests = [⟨1, "x"⟩]
    ∧ ((gDupInterest.interestEdges.filter (fun e => e.dst == 1)).map
        (fun e => e.src)).dedup.length = 1
    ∧ find_communities gDupInterest 2 = [⟨"x", 2, ["A", "A"]⟩] := by
  refine ⟨by decide, by decide, by decide⟩

/-- Claim C6 witness: membership applied concretely — with two distinct
users holding interest `x` (count 2 ≥ 2) the community is returned, and
with a single member (count 1 < 2) every returned entry avoids the
name, by the exclusion part of the theorem. -/
theorem C6_witness :
    (⟨"x", 2, ["A", "B"]⟩ : CommunityEntry) ∈ find_communities gTwoInterest 2
    ∧ ∀ c ∈ find_communities (add_interest gOne "a" "x") 2, c.interest ≠ "x" :=
  ⟨(C6_communities_amended.1 gTwoInterest 2 ⟨"x", 2, ["A", "B"]⟩).mpr
      ⟨⟨2, "x"⟩, by decide, by decide, by decide, by decide, by decide, by decide⟩,
   C6_communities_amended.2.2.1 (add_interest gOne "a" "x") 2 ⟨1, "x"⟩
      (by unfold InterestNamesNodup; decide) (by decide) (by decide)⟩

/-! ## Second-degree semantics (claims C1 and C7) -/

/-- The claim's second-degree-candidate predicate: reachable by exactly
two `FRIENDS_WITH` hops, not the user itself, not a direct friend. -/
def IsSecondDegree (g : GraphState) (unid cnid : Nat) : Prop :=
  (∃ f, hasFriendEdge g unid f = true ∧ hasFriendEdge g f cnid = true)
  ∧ cnid ≠ unid ∧ hasFriendEdge g unid cnid = false

/-- Bounded (decidable) form of `IsSecondDegree`. -/
def isSecondDegreeB (g : GraphState) (unid cnid : Nat) : Bool :=
  (allEnds g).any (fun f => hasFriendEdge g unid f && hasFriendEdge g f cnid)
  && !(cnid == unid) && !(hasFriendEdge g unid cnid)

/-- The set of second-degree candidates of a node. -/
def secondDegSet (g : GraphState) (unid : Nat) : Finset Nat :=
  (allEnds g).toFinset.filter (fun c => isSecondDegreeB g unid c = true)

/-- The number of distinct one-hop friends of `unid` through which `cnid`
is reachable (the claim's mutual-friend count, as a set cardinality). -/
def mutualSpec (g : GraphState) (unid cnid : Nat) : Nat :=
  ((allEnds g).toFinset.filter
    (fun f => hasFriendEdge g unid f = true ∧ hasFriendEdge g f cnid = true)).card

theorem dst_mem_allEnds {g : GraphState} {a b : Nat}
    (h : hasFriendEdge g a b = true) : b ∈ allEnds g := by
  obtain ⟨e, he, _, hdst⟩ := hasFriendEdge_iff.mp h
  exact List.mem_flatMap.mpr ⟨e, he, by simp [hdst]⟩

theorem isSecondDegreeB_iff {g : GraphState} {unid cnid : Nat} :
    isSecondDegreeB g unid cnid = true ↔ IsSecondDegree g unid cnid := by
  unfold isSecondDegreeB IsSecondDegree
  simp only [Bool.and_eq_true, List.any_eq_true, Bool.not_eq_true',
    beq_eq_false_iff_ne]
  constructor
  · rintro ⟨⟨⟨f, _, hf1, hf2⟩, hne⟩, hno⟩
    exact ⟨⟨f, hf1, hf2⟩, hne, hno⟩
  · rintro ⟨⟨f, hf1, hf2⟩, hne, hno⟩
    exact ⟨⟨⟨f, dst_mem_allEnds hf1, hf1, hf2⟩, hne⟩, hno⟩

theorem mem_potentialList {g : GraphState} {unid cnid : Nat} :
    cnid ∈ potentialList g unid ↔ IsSecondDegree g unid cnid := by
  unfold potentialList IsSecondDegree
  simp only [List.mem_filter, List.mem_dedup, List.mem_flatMap,
    mem_outFriendNids, Bool.and_eq_true, Bool.not_eq_true',
    beq_eq_false_iff_ne]

theorem potentialList_length_eq_card (g : GraphState) (unid : Nat) :
    (potentialList g unid).length = (secondDegSet g unid).card := by
  rw [← List.toFinset_card_of_nodup (nodup_potentialList g unid)]
  congr 1
  ext c
  simp only [List.mem_toFinset, mem_potentialList, secondDegSet,
    Finset.mem_filter, isSecondDegreeB_iff]
  constructor
  · intro h
    refine ⟨?_, h⟩
    obtain ⟨⟨f, _, hf2⟩, _, _⟩ := h
    exact dst_mem_allEnds hf2
  · exact fun h => h.2

theorem mutualCount_eq_spec (g : GraphState) (unid cnid : Nat) :
    mutualCount g unid cnid = mutualSpec g unid cnid := by
  unfold mutualCount mutualSpec
  have hnd : (((outFriendNids g unid).dedup).filter
      (fun f => hasFriendEdge g f cnid)).Nodup :=
    List.Nodup.filter _ (List.nodup_dedup _)
  rw [← List.toFinset_card_of_nodup hnd]
  congr 1
  ext f
  simp only [List.mem_toFinset, List.mem_filter, List.mem_dedup,
    mem_outFriendNids, Finset.mem_filter]
  constructor
  · rintro ⟨h1, h2⟩
    exact ⟨dst_mem_allEnds h1, h1, h2⟩
  · rintro ⟨_, h1, h2⟩
    exact ⟨h1, h2⟩

theorem length_filterMap_of_forall_isSome {α β : Type} {f : α → Option β} :
    ∀ {l : List α}, (∀ x ∈ l, (f x).isSome = true) →
      (l.filterMap f).length = l.length := by
  intro l
  induction l with
  | nil => intro h; rfl
  | cons a t ih =>
    intro h
    cases hfa : f a with
    | none =>
      have := h a (List.mem_cons_self a t)
      rw [hfa] at this
      simp at this
    | some b =>
      simp only [List.filterMap_cons, hfa, List.length_cons]
      rw [ih (fun x hx => h x (List.mem_cons_of_mem a hx))]

/-- The well-formedness used below: every `FRIENDS_WITH` edge target is a
user node (true of every state the operations can reach, since
`add_friendship` only connects matched users). -/
def FriendDstsAreUsers (g : GraphState) : Prop :=
  ∀ e ∈ g.friendEdges, (userByNid g e.dst).isSome = true

theorem candidateNodes_length {g : GraphState} {unid : Nat}
    (hwf : FriendDstsAreUsers g) :
    (candidateNodes g unid).length = (potentialList g unid).length := by
  unfold candidateNodes
  apply length_filterMap_of_forall_isSome
  intro c hc
  obtain ⟨⟨f, _, hf2⟩, _, _⟩ := mem_potentialList.mp hc
  obtain ⟨e, he, _, hdst⟩ := hasFriendEdge_iff.mp hf2
  rw [← hdst]
  exact hwf e he

theorem fofFull_eq_of_single {g : GraphState} {uid : String} {u : UserNode}
    (hm : matchUsers g uid = [u]) :
    fofFull g uid = (fofGroups g u.nid).map
      (fun kc => ⟨kc.1.1, kc.1.2.1, kc.1.2.2, kc.2⟩) := by
  unfold fofFull
  rw [hm]
  simp

theorem length_le_of_nodup_subset {α : Type} [DecidableEq α]
    {l1 l2 : List α} (hnd : l1.Nodup) (hsub : l1 ⊆ l2) :
    l1.length ≤ l2.length := by
  calc l1.length = l1.toFinset.card := (List.toFinset_card_of_nodup hnd).symm
    _ ≤ l2.toFinset.card := Finset.card_le_card
        (fun a ha => List.mem_toFinset.mpr (hsub (List.mem_toFinset.mp ha)))
    _ ≤ l2.length := List.toFinset_card_le l2

theorem mem_fofRows {g : GraphState} {unid : Nat} {f : Nat} {c : UserNode} :
    (f, c) ∈ fofRows g unid ↔
      hasFriendEdge g unid f = true ∧ hasFriendEdge g f c.nid = true
      ∧ userByNid g c.nid = some c
      ∧ c.nid ≠ unid ∧ hasFriendEdge g unid c.nid = false := by
  unfold fofRows
  simp only [List.mem_flatMap, List.mem_filterMap, mem_outFriendNids]
  constructor
  · rintro ⟨f2, hf2, c2, ⟨cn, hcn, hub⟩, hite⟩
    split_ifs at hite with hcond
    · have hpair := Option.some.inj hite
      have hfe : f2 = f := congrArg Prod.fst hpair
      have hce : c2 = c := congrArg Prod.snd hpair
      rw [← hfe, ← hce]
      have hcnid : c2.nid = cn := (userByNid_eq_some hub).2
      refine ⟨hf2, ?_, ?_, hcond.1, hcond.2⟩
      · rw [hcnid]
        exact hcn
      · rw [hcnid]
        exact hub
  · rintro ⟨h1, h2, hub, hne, hno⟩
    refine ⟨f, h1, c, ⟨c.nid, h2, hub⟩, ?_⟩
    rw [if_pos ⟨hne, hno⟩]

theorem mem_fofGroups {g : GraphState} {unid : Nat}
    {k : String × String × String} {m : Nat} :
    (k, m) ∈ fofGroups g unid ↔
      (∃ r ∈ fofRows g unid, fofKey r.2 = k)
      ∧ m = (groupFriends g unid k).length := by
  unfold fofGroups
  simp only [List.mem_map, List.mem_dedup]
  constructor
  · rintro ⟨k2, hk2, heq⟩
    have hke : k2 = k := congrArg Prod.fst heq
    have hme : (groupFriends g unid k2).length = m := congrArg Prod.snd heq
    subst hke
    exact ⟨hk2, hme.symm⟩
  · rintro ⟨⟨r, hr, hrk⟩, rfl⟩
    exact ⟨k, ⟨r, hr, hrk⟩, rfl⟩

theorem mem_groupFriends {g : GraphState} {unid : Nat}
    {k : String × String × String} {f : Nat} :
    f ∈ groupFriends g unid k ↔
      ∃ c : UserNode, (f, c) ∈ fofRows g unid ∧ fofKey c = k := by
  unfold groupFriends
  simp only [List.mem_dedup, List.mem_map, List.mem_filter, decide_eq_true_eq]
  constructor
  · rintro ⟨⟨rf, rc⟩, ⟨hr, hrk⟩, hf⟩
    simp only at hf
    subst hf
    exact ⟨rc, hr, hrk⟩
  · rintro ⟨c, hrc, hk⟩
    exact ⟨(f, c), ⟨hrc, hk⟩, rfl⟩

/-- In a store where no two distinct users share the full projected
property triple, the aggregation group of a candidate's value tuple
collects exactly that node's rows, so its `COUNT(DISTINCT friend)` is
the claim's per-candidate mutual-friend count. -/
theorem groupFriends_eq_mutualSpec {g : GraphState} {unid : Nat}
    {c : UserNode} (hnd : (g.users.map (fun x => x.nid)).Nodup)
    (hprops : (g.users.map fofKey).Nodup)
    (hc : c ∈ g.users) (hsd : IsSecondDegree g unid c.nid) :
    (groupFriends g unid (fofKey c)).length = mutualSpec g unid c.nid := by
  have hmem : ∀ f, f ∈ groupFriends g unid (fofKey c) ↔
      (hasFriendEdge g unid f = true ∧ hasFriendEdge g f c.nid = true) := by
    intro f
    rw [mem_groupFriends]
    constructor
    · rintro ⟨c2, hrow, hk⟩
      obtain ⟨h1, h2, hub, _, _⟩ := mem_fofRows.mp hrow
      have hc2mem : c2 ∈ g.users := (userByNid_eq_some hub).1
      have : c2 = c := List.inj_on_of_nodup_map hprops hc2mem hc hk
      subst this
      exact ⟨h1, h2⟩
    · rintro ⟨h1, h2⟩
      exact ⟨c, mem_fofRows.mpr
        ⟨h1, h2, userByNid_of_mem hnd hc, hsd.2.1, hsd.2.2⟩, rfl⟩
  have hnodup : (groupFriends g unid (fofKey c)).Nodup := List.nodup_dedup _
  rw [← List.toFinset_card_of_nodup hnodup]
  unfold mutualSpec
  congr 1
  ext f
  simp only [List.mem_toFinset, Finset.mem_filter, hmem]
  constructor
  · rintro ⟨h1, h2⟩
    exact ⟨dst_mem_allEnds h1, h1, h2⟩
  · rintro ⟨_, h1, h2⟩
    exact ⟨h1, h2⟩

/-- The number of aggregation groups never exceeds the number of
candidate nodes (each group is inhabited by at least one). -/
theorem fofGroups_length_le {g : GraphState} {unid : Nat}
    (hwf : FriendDstsAreUsers g) :
    (fofGroups g unid).length ≤ (potentialList g unid).length := by
  have hkeys : (fofGroups g unid).length
      = (((fofRows g unid).map (fun r => fofKey r.2)).dedup).length := by
    unfold fofGroups
    rw [List.length_map]
  have hsub : ((fofRows g unid).map (fun r => fofKey r.2)).dedup
      ⊆ (candidateNodes g unid).map fofKey := by
    intro k hk
    rw [List.mem_dedup, List.mem_map] at hk
    obtain ⟨⟨rf, rc⟩, hr, hrk⟩ := hk
    obtain ⟨h1, h2, hub, hne, hno⟩ := mem_fofRows.mp hr
    have hcand : rc ∈ candidateNodes g unid :=
      List.mem_filterMap.mpr
        ⟨rc.nid, mem_potentialList.mpr ⟨⟨rf, h1, h2⟩, hne, hno⟩, hub⟩
    rw [← hrk]
    exact List.mem_map.mpr ⟨rc, hcand, rfl⟩
  have hle := length_le_of_nodup_subset (List.nodup_dedup _) hsub
  rw [List.length_map] at hle
  rw [hkeys, ← candidateNodes_length hwf]
  exact hle

/-- With pairwise-distinct property triples the groups are in bijection
with the candidate nodes, so the pre-truncation row count equals the
candidate-set size. -/
theorem fofGroups_length_eq {g : GraphState} {unid : Nat}
    (hwf : FriendDstsAreUsers g)
    (hnd : (g.users.map (fun x => x.nid)).Nodup)
    (hprops : (g.users.map fofKey).Nodup) :
    (fofGroups g unid).length = (potentialList g unid).length := by
  refine Nat.le_antisymm (fofGroups_length_le hwf) ?_
  rw [← candidateNodes_length hwf]
  have hcn_sub_users : ∀ c ∈ candidateNodes g unid, c ∈ g.users := by
    intro c hc
    obtain ⟨cn, _, hub⟩ := List.mem_filterMap.mp hc
    exact (userByNid_eq_some hub).1
  have hnodup_cand : (candidateNodes g unid).Nodup := by
    unfold candidateNodes
    refine List.Nodup.filterMap ?_ (nodup_potentialList g unid)
    intro a a2 b hb hb2
    have e1 : b.nid = a := (userByNid_eq_some (Option.mem_def.mp hb)).2
    have e2 : b.nid = a2 := (userByNid_eq_some (Option.mem_def.mp hb2)).2
    rw [← e1, ← e2]
  have hmapkey_nodup : ((candidateNodes g unid).map fofKey).Nodup :=
    List.Nodup.map_on
      (fun x hx y hy hxy =>
        List.inj_on_of_nodup_map hprops (hcn_sub_users x hx)
          (hcn_sub_users y hy) hxy)
      hnodup_cand
  have hsub : (candidateNodes g unid).map fofKey
      ⊆ ((fofRows g unid).map (fun r => fofKey r.2)).dedup := by
    intro k hk
    obtain ⟨c, hc, hck⟩ := List.mem_map.mp hk
    obtain ⟨cn, hcp, hub⟩ := List.mem_filterMap.mp hc
    have hcn : c.nid = cn := (userByNid_eq_some hub).2
    rw [← hcn] at hcp
    obtain ⟨⟨f, hf1, hf2⟩, hne, hno⟩ := mem_potentialList.mp hcp
    have hub2 : userByNid g c.nid = some c := by
      rw [hcn]
      exact hub
    have hrow : (f, c) ∈ fofRows g unid :=
      mem_fofRows.mpr ⟨hf1, hf2, hub2, hne, hno⟩
    rw [List.mem_dedup, ← hck]
    exact List.mem_map.mpr ⟨(f, c), hrow, rfl⟩
  have hge := length_le_of_nodup_subset hmapkey_nodup hsub
  rw [List.length_map] at hge
  calc (candidateNodes g unid).length
      ≤ (((fofRows g unid).map (fun r => fofKey r.2)).dedup).length := hge
    _ = (fofGroups g unid).length := by
        unfold fofGroups
        rw [List.length_map]

/-! ## Claim C7 -/

/-- Claim C7, amended: for a uniquely matched user in a well-formed
store, `potential_connections` is `COUNT(DISTINCT fof)` — the number of
distinct second-degree candidate *nodes* — never capped, while the
ranked list is truncated to `min 10` of the pre-truncation row count; in
particular with more than ten pre-truncation rows the statistic exceeds
10 although the list has exactly 10 entries.  The statistic equals the
pre-truncation row count of `find_friends_of_friends` exactly where no
two distinct users share the full projected property triple (the query
value-groups candidates, merging duplicate-property nodes into one row),
and always bounds it from above. -/
theorem C7_stats_amended :
    ∀ (g : GraphState) (uid : String) (u : UserNode),
      matchUsers g uid = [u] → FriendDstsAreUsers g →
      ∃ r : StatsRecord, get_network_statistics g uid = some r
        ∧ r.potential_connections = (secondDegSet g u.nid).card
        ∧ (fofFull g uid).length ≤ r.potential_connections
        ∧ (find_friends_of_friends g uid).length = min 10 (fofFull g uid).length
        ∧ (10 < (fofFull g uid).length →
            10 < r.potential_connections
            ∧ (find_friends_of_friends g uid).length = 10)
        ∧ ((g.users.map (fun x => x.nid)).Nodup →
            (g.users.map fofKey).Nodup →
            r.potential_connections = (fofFull g uid).length) := by
  intro g uid u hm hwf
  have hr := get_network_statistics_single hm
  have hfl : (fofFull g uid).length = (fofGroups g u.nid).length := by
    rw [fofFull_eq_of_single hm, List.length_map]
  have hle : (fofFull g uid).length ≤ (potentialList g u.nid).length := by
    rw [hfl]
    exact fofGroups_length_le hwf
  have htake : (find_friends_of_friends g uid).length
      = min 10 (fofFull g uid).length := by
    unfold find_friends_of_friends
    rw [List.length_take, length_sortDescBy]
  refine ⟨_, hr, potentialList_length_eq_card g u.nid, hle, htake, ?_, ?_⟩
  · intro hgt
    constructor
    · show 10 < (potentialList g u.nid).length
      omega
    · rw [htake]
      omega
  · intro hnd hprops
    show (potentialList g u.nid).length = (fofFull g uid).length
    rw [hfl, fofGroups_length_eq hwf hnd hprops]

/-- The ids of the thirteen-user hub store: `u` is friends with `h`, and
`h` with each of the eleven others, giving `u` eleven second-degree
candidates. -/
def bigIds : List String :=
  ["u", "h", "c1", "c2", "c3", "c4", "c5", "c6", "c7", "c8", "c9", "ca", "cb"]

/-- Hub store with more than ten second-degree candidates for `u`. -/
def gBig : GraphState :=
  let g1 := bigIds.foldl (fun g k => create_user g k k 1 "L") emptyGraph
  let g2 := add_friendship g1 "u" "h" "t"
  (bigIds.drop 2).foldl (fun g k => add_friendship g "h" k "t") g2

/-- Store in which two distinct candidate nodes (nids 3 and 4) share the
full property triple `("c", "C", "L")`: `u`–`f1`, `u`–`f2`, `f1`–`c`
(one copy), then a second node with `c`'s exact properties is created
and `f2`–`c` matches both copies. -/
def gDupC : GraphState :=
  add_friendship (create_user (add_friendship (add_friendship (add_friendship
    (create_user (create_user (create_user (create_user emptyGraph
      "u" "U" 1 "L") "f1" "F1" 1 "L") "f2" "F2" 1 "L") "c" "C" 1 "L")
    "u" "f1" "t") "u" "f2" "t") "f1" "c" "t") "c" "C" 1 "L") "f2" "c" "t"

/-- Claim C7, counterexample to the claim as stated: in `gDupC` the two
duplicate-property nodes 3 and 4 are both genuine second-degree
candidates of `u`, so `COUNT(DISTINCT fof)` is 2 — but the query's
value-grouping collapses them into a single pre-`LIMIT` row, so the set
`find_friends_of_friends` is computed from has one row before
truncation.  The two quantities the claim equates differ (2 ≠ 1) at a
state reachable through the public operations. -/
theorem C7_counterexample :
    (∃ r : StatsRecord, get_network_statistics gDupC "u" = some r
      ∧ r.potential_connections = 2)
    ∧ (fofFull gDupC "u").length = 1
    ∧ find_friends_of_friends gDupC "u" = [⟨"c", "C", "L", 2⟩]
    ∧ IsSecondDegree gDupC 0 3 ∧ IsSecondDegree gDupC 0 4
    ∧ matchUsers gDupC "u" = [⟨0, "u", "U", 1, "L"⟩]
    ∧ FriendDstsAreUsers gDupC := by
  refine ⟨⟨⟨"U", 2, 0, 2⟩, by decide, by decide⟩, by decide, by decide,
    ⟨⟨1, by decide, by decide⟩, by decide, by decide⟩,
    ⟨⟨2, by decide, by decide⟩, by decide, by decide⟩,
    by decide, ?_⟩
  unfold FriendDstsAreUsers
  decide

/-- Claim C7 witness: in the hub store (all property triples distinct)
the statistic is 11 (> 10) while the ranked list holds exactly 10
entries. -/
theorem C7_witness :
    ∃ r : StatsRecord, get_network_statistics gBig "u" = some r
      ∧ 10 < r.potential_connections
      ∧ (find_friends_of_friends gBig "u").length = 10 := by
  obtain ⟨r, hr, _, _, _, h4, _⟩ :=
    C7_stats_amended gBig "u" ⟨0, "u", "u", 1, "L"⟩ (by decide)
      (by unfold FriendDstsAreUsers; decide)
  have hlen : (fofFull gBig "u").length = 11 := by decide
  obtain ⟨h5, h6⟩ := h4 (by omega)
  exact ⟨r, hr, h5, h6⟩

/-! ## Claim C1 -/

/-- Claim C1, amended: each entry `find_friends_of_friends` returns is
one aggregation group of genuine second-degree candidates (reachable by
exactly two `FRIENDS_WITH` hops, not the user, not a direct friend);
where no two distinct users share the projected `(id, name, location)`
triple — so groups are single candidates — each entry's
`mutual_friends` is the number of *distinct* intermediate friends (not
paths) of its candidate, the list is ranked by that count descending
and truncated to at most 10 entries, and whenever the full candidate
set has at most ten members the list contains an entry for *every*
candidate (the `LIMIT 10` truncation and the value-grouping are the
corrections to the claim).  The final conjunct is the concrete
Alice–Bob–Carol scenario: exactly one entry, for Carol, with
`mutual_friends = 1`. -/
theorem C1_fof_amended :
    (∀ (g : GraphState) (uid : String) (u : UserNode),
      matchUsers g uid = [u] → FriendDstsAreUsers g →
      (g.users.map (fun x => x.nid)).Nodup →
      (g.users.map fofKey).Nodup →
      (∀ e ∈ find_friends_of_friends g uid,
        ∃ c : UserNode, c ∈ g.users
          ∧ e.user_id = c.id ∧ e.name = c.name ∧ e.location = c.location
          ∧ IsSecondDegree g u.nid c.nid
          ∧ e.mutual_friends = mutualSpec g u.nid c.nid)
      ∧ ((fofFull g uid).length ≤ 10 →
          ∀ c : UserNode, c ∈ g.users → IsSecondDegree g u.nid c.nid →
            ∃ e ∈ find_friends_of_friends g uid,
              e.user_id = c.id ∧ e.name = c.name ∧ e.location = c.location
              ∧ e.mutual_friends = mutualSpec g u.nid c.nid)
      ∧ List.Sorted (rankGe (fun e => e.mutual_friends))
          (find_friends_of_friends g uid)
      ∧ (find_friends_of_friends g uid).length ≤ 10)
    ∧ find_friends_of_friends gABC "a" = [⟨"c", "Carol", "NY", 1⟩] := by
  constructor
  · intro g uid u hm hwf hnd hprops
    have hfull := fofFull_eq_of_single hm
    refine ⟨?_, ?_, ?_, ?_⟩
    · intro e he
      have he2 : e ∈ sortDescBy (fun x => x.mutual_friends) (fofFull g uid) :=
        List.take_subset 10 _ he
      rw [mem_sortDescBy, hfull] at he2
      obtain ⟨kc, hkc, rfl⟩ := List.mem_map.mp he2
      obtain ⟨k, m⟩ := kc
      obtain ⟨⟨r, hr, hrk⟩, hmval⟩ := mem_fofGroups.mp hkc
      obtain ⟨rf, rc⟩ := r
      obtain ⟨h1, h2, hub, hne, hno⟩ := mem_fofRows.mp hr
      have hcmem : rc ∈ g.users := (userByNid_eq_some hub).1
      have hsd : IsSecondDegree g u.nid rc.nid := ⟨⟨rf, h1, h2⟩, hne, hno⟩
      refine ⟨rc, hcmem, ?_, ?_, ?_, hsd, ?_⟩
      · show k.1 = rc.id
        rw [← hrk]
        rfl
      · show k.2.1 = rc.name
        rw [← hrk]
        rfl
      · show k.2.2 = rc.location
        rw [← hrk]
        rfl
      · show m = mutualSpec g u.nid rc.nid
        rw [hmval, ← hrk]
        exact groupFriends_eq_mutualSpec hnd hprops hcmem hsd
    · intro hle c hcmem hsd
      obtain ⟨⟨f0, hf1, hf2⟩, hne, hno⟩ := hsd
      have hsd2 : IsSecondDegree g u.nid c.nid := ⟨⟨f0, hf1, hf2⟩, hne, hno⟩
      have hub : userByNid g c.nid = some c := userByNid_of_mem hnd hcmem
      have hrow : (f0, c) ∈ fofRows g u.nid :=
        mem_fofRows.mpr ⟨hf1, hf2, hub, hne, hno⟩
      have hkmem : (fofKey c, (groupFriends g u.nid (fofKey c)).length)
          ∈ fofGroups g u.nid :=
        mem_fofGroups.mpr ⟨⟨(f0, c), hrow, rfl⟩, rfl⟩
      have hemem : (⟨c.id, c.name, c.location,
          (groupFriends g u.nid (fofKey c)).length⟩ : FofEntry)
          ∈ fofFull g uid := by
        rw [hfull]
        exact List.mem_map.mpr
          ⟨(fofKey c, (groupFriends g u.nid (fofKey c)).length), hkmem, rfl⟩
      have htakeall : find_friends_of_friends g uid
          = sortDescBy (fun x => x.mutual_friends) (fofFull g uid) := by
        unfold find_friends_of_friends
        apply List.take_of_length_le
        rw [length_sortDescBy]
        exact hle
      refine ⟨⟨c.id, c.name, c.location,
        (groupFriends g u.nid (fofKey c)).length⟩, ?_, rfl, rfl, rfl, ?_⟩
      · rw [htakeall]
        exact mem_sortDescBy.mpr hemem
      · exact groupFriends_eq_mutualSpec hnd hprops hcmem hsd2
    · unfold find_friends_of_friends
      exact (sorted_sortDescBy _ _).sublist (List.take_sublist _ _)
    · unfold find_friends_of_friends
      rw [List.length_take]
      exact min_le_left _ _
  · decide

/-- Claim C1, counterexample to the claim as stated: in the hub store
`gBig` the user `cb` (nid 12) *is* reachable by exactly two hops from `u`
(nid 0) through `h`, is not `u`, and is not a direct friend — yet no
returned entry carries its id, because the result is truncated to 10 of
the 11 candidates.  So the returned list is not "exactly the nodes
reachable by exactly two hops". -/
theorem C1_counterexample :
    matchUsers gBig "u" = [⟨0, "u", "u", 1, "L"⟩]
    ∧ IsSecondDegree gBig 0 12
    ∧ (⟨12, "cb", "cb", 1, "L"⟩ : UserNode) ∈ gBig.users
    ∧ ∀ e ∈ find_friends_of_friends gBig "u", e.user_id ≠ "cb" := by
  refine ⟨by decide, ⟨⟨1, by decide, by decide⟩, by decide, by decide⟩,
    by decide, by decide⟩

/-- Claim C1 witness: the soundness part of the amended theorem applied
to the Alice–Bob–Carol store (`alice` has nid 0). -/
theorem C1_witness :
    ∀ e ∈ find_friends_of_friends gABC "a",
      ∃ c : UserNode, c ∈ gABC.users
        ∧ e.user_id = c.id ∧ e.name = c.name ∧ e.location = c.location
        ∧ IsSecondDegree gABC 0 c.nid
        ∧ e.mutual_friends = mutualSpec gABC 0 c.nid :=
  (C1_fof_amended.1 gABC "a" ⟨0, "a", "Alice", 28, "NY"⟩ (by decide)
    (by unfold FriendDstsAreUsers; decide) (by decide) (by decide)).1

/-! ## Reachability lemmas (claim C2) -/

end Blackthorne
